import Mathlib

/-!
Shallow embedding of the pdist dependency-graph engine
(`pyscriptpacker/graph.py`) and of the import-style classifier
(`ppack/checks.py`).

Paths are modelled as lists of segments (Python path strings split on the
separator `"/"`).  The filesystem is modelled as the list of existing file
paths together with the text content and parsed import statements of each
file; directory existence, `os.listdir`, `os.walk`, `os.path.isfile` and
`os.path.exists` are derived from that list exactly as the POSIX calls
behave on a tree containing those files.

Python string operations used by the source (`str.split`, `str.replace`
on `'.'`, `str.rpartition('.')[0]`, substring membership `in`,
`str.endswith`, slicing `[:-2]`) are re-implemented over `List Char`
so that every step of the source is mirrored by an executable Lean
definition.
-/

namespace PDist

/-- Python `needle in hay` (substring membership). -/
def strContains (hay needle : String) : Bool :=
  decide (needle.data <:+: hay.data)

/-- Python `s.startswith (t)`. -/
def strStartsWith (s t : String) : Bool :=
  decide (t.data <+: s.data)

/-- Python `s.endswith (t)`. -/
def strEndsWith (s t : String) : Bool :=
  decide (t.data <:+ s.data)

/-- Python `s[:-n]` for `n ≤ len s`. -/
def strDropRight (s : String) (n : Nat) : String :=
  String.mk (s.data.take (s.data.length - n))

/-- Python `s.replace ('.', '/')` (single-character replacement is a map). -/
def dotToSlash (s : String) : String :=
  String.mk (s.data.map (fun c => if c = '.' then '/' else c))

/-- Python `s.split (c)` for a single-character separator, on char lists. -/
def splitCh (c : Char) : List Char → List (List Char)
  | [] => [[]]
  | ch :: rest =>
    match splitCh c rest with
    | g :: gs => if ch = c then [] :: g :: gs else (ch :: g) :: gs
    | [] => [[ch]]

/-- Python `s.split ('/')`. -/
def splitSlash (s : String) : List String :=
  (splitCh '/' s.data).map String.mk

/-- Characters of `hay` strictly before the first occurrence of `needle`
(the whole of `hay` when `needle` does not occur): Python
`hay.split (needle)[0]` for a non-empty `needle`. -/
def takeBefore (needle : List Char) : List Char → List Char
  | [] => []
  | c :: rest =>
    if needle.isPrefixOf (c :: rest) then []
    else c :: takeBefore needle rest

/-- Python `file_name.split ('.py')[0]`. -/
def splitPyHead (s : String) : String :=
  String.mk (takeBefore ".py".data s.data)

/-- Python `file_name.split ('/')[-1]`. -/
def lastSlashSeg (s : String) : String :=
  (splitSlash s).getLastD ""

/-- Helper for `rpartitionHead`: on the reversed character list, drop
everything up to and including the first `'.'`; empty when there is none. -/
def revHead : List Char → List Char
  | [] => []
  | c :: rest => if c = '.' then rest else revHead rest

/-- Python `s.rpartition ('.')[0]`: everything before the last dot,
`""` when there is no dot. -/
def rpartitionHead (s : String) : String :=
  String.mk ((revHead s.data.reverse).reverse)

theorem revHead_length_lt : ∀ l : List Char, l ≠ [] → (revHead l).length < l.length := by
  intro l
  induction l with
  | nil => intro h; exact absurd rfl h
  | cons c rest ih =>
    intro _
    show (if c = '.' then rest else revHead rest).length < rest.length + 1
    by_cases hc : c = '.'
    · rw [if_pos hc]; exact Nat.lt_succ_self _
    · rw [if_neg hc]
      rcases rest with _ | ⟨d, t⟩
      · show (revHead []).length < 1
        exact Nat.zero_lt_one
      · exact Nat.lt_trans (ih (by simp)) (Nat.lt_succ_self _)

theorem rpartitionHead_length_lt (s : String) (h : s ≠ "") :
    (rpartitionHead s).length < s.length := by
  have hdata : s.data ≠ [] := by
    intro hcon
    apply h
    cases s
    simp_all
  have hrev : s.data.reverse ≠ [] := by simpa using hdata
  have hlt := revHead_length_lt s.data.reverse hrev
  have h1 : (rpartitionHead s).length = (revHead s.data.reverse).length := by
    show ((revHead s.data.reverse).reverse).length = _
    exact List.length_reverse _
  have h2 : s.data.reverse.length = s.length := List.length_reverse _
  rw [h1, ← h2]
  exact hlt

/-- One parsed top-level import statement of a source file (the fragment
of the Python AST that `ImportFinder` and the checks visit). -/
inductive PyStmt where
  | imp (names : List String)
  | impFrom (moduleOpt : Option String) (names : List String) (level : Nat)
deriving DecidableEq, Repr

/-- `ImportInfo` from graph.py: a referenced dotted name and the
relative-import level (`none` for a plain `import`). -/
structure ImportInfo where
  name : String
  level : Option Nat
deriving DecidableEq, Repr

/-- `ImportFinder`: collect `ImportInfo` records from the parsed
statements (`visit_Import` passes level `None`; `visit_ImportFrom`
prefixes the module when present and passes the node's level). -/
def list_imports (stmts : List PyStmt) : List ImportInfo :=
  stmts.flatMap fun s =>
    match s with
    | .imp names => names.map (fun n => ⟨n, none⟩)
    | .impFrom mo names lvl =>
      names.map (fun a =>
        ⟨match mo with
         | some m => m ++ "." ++ a
         | none => a, some lvl⟩)

/-- A filesystem path, as the list of its separator-delimited segments. -/
abbrev Path := List String

/-- The filesystem: the set of existing files with their text and their
parsed import statements. -/
structure FS where
  files : List Path
  contents : Path → String
  ast : Path → List PyStmt

/-- Python `os.path.isfile`. -/
def FS.isFile (fs : FS) (p : Path) : Bool :=
  fs.files.any (fun f => decide (f = p))

/-- A directory exists exactly when it is a proper prefix of some file. -/
def FS.isDir (fs : FS) (p : Path) : Bool :=
  fs.files.any (fun f => decide (p ≠ f) && p.isPrefixOf f)

/-- Python `os.path.exists`. -/
def FS.pathExists (fs : FS) (p : Path) : Bool :=
  fs.isFile p || fs.isDir p

/-- Python `os.listdir`: the names directly inside directory `d`. -/
def FS.listdir (fs : FS) (d : Path) : List String :=
  (fs.files.filterMap (fun f =>
    if d.isPrefixOf f then (f.drop d.length).head? else none)).dedup

/-- Names in `d` that are files. -/
def FS.filesIn (fs : FS) (d : Path) : List String :=
  (fs.listdir d).filter (fun n => fs.isFile (d ++ [n]))

/-- Names in `d` that are directories. -/
def FS.subdirsIn (fs : FS) (d : Path) : List String :=
  (fs.listdir d).filter (fun n => fs.isDir (d ++ [n]))

/-- A bound on the depth of the tree, used as fuel for `walk`. -/
def FS.depthBound (fs : FS) : Nat :=
  fs.files.foldr (fun f acc => max f.length acc) 0

/-- Python `os.walk`, top-down: every visited directory paired with the
plain files it directly contains. -/
def FS.walkAux (fs : FS) : Nat → Path → List (Path × List String)
  | 0, _ => []
  | fuel + 1, top =>
    if fs.isDir top then
      (top, fs.filesIn top) ::
        (fs.subdirsIn top).flatMap (fun n => fs.walkAux fuel (top ++ [n]))
    else []

/-- Python `os.walk` with enough fuel to exhaust the tree. -/
def FS.walk (fs : FS) (top : Path) : List (Path × List String) :=
  fs.walkAux (fs.depthBound + 1) top

/-- `Module` from graph.py: a node of the dependency graph. -/
structure Module where
  module_name : String
  file_name : String
  is_package : Bool
  content : String
  imports : List String
deriving DecidableEq, Repr

/-- One record of the generated pack data (`Module.to_dict`). -/
structure PackRecord where
  name : String
  is_package : Bool
  code : String
deriving DecidableEq, Repr

/-- `Module.to_dict`. -/
def Module.to_dict (m : Module) : PackRecord :=
  { name := m.module_name, is_package := m.is_package, code := m.content }

/-- The mutable state of a `ModuleGraph`: `_modules` (a dict, kept in
insertion order), `_module_cache`, and `_paths`. -/
structure GraphState where
  modules : List (String × Module)
  cache : List ((String × Option Path) × String)
  paths : List Path
deriving Repr

/-- Python dict assignment on the module registry: overwrite in place,
or append a new entry. -/
def upsert (l : List (String × Module)) (k : String) (v : Module) :
    List (String × Module) :=
  match l with
  | [] => [(k, v)]
  | e :: rest => if e.1 = k then (k, v) :: rest else e :: upsert rest k v

/-- Python dict lookup on the module registry. -/
def lookupModule (l : List (String × Module)) (k : String) : Option Module :=
  (l.find? (fun e => decide (e.1 = k))).map Prod.snd

/-- Python dict lookup on the resolution cache (newest entry wins). -/
def cache_lookup (c : List ((String × Option Path) × String))
    (k : String × Option Path) : Option String :=
  (c.find? (fun e => decide (e.1 = k))).map Prod.snd

/-- The check `'.py' in file and file != 'setup.py'` from
`_find_module_name`. -/
def py_entry (f : String) : Bool :=
  strContains f ".py" && decide (f ≠ "setup.py")

/-- The upward walk of `_find_module_name`, on the reversed directory
path: pop the innermost directory name, then stop as soon as the
remaining (parent) directory contains no python file. -/
def collect_parts (fs : FS) : List String → List String
  | [] => []
  | e :: rest =>
    if (fs.listdir rest.reverse).any py_entry then e :: collect_parts fs rest
    else [e]

/-- `ModuleGraph._find_module_name`. -/
def find_module_name (fs : FS) (file_name : String) (file_path : Path) : String :=
  let parts := collect_parts fs file_path.reverse
  let module_name := String.intercalate "." parts.reverse
  if strContains file_name "__init__.py" then module_name
  else
    let fn := splitPyHead file_name
    let fn := if strContains fn "/" then lastSlashSeg fn else fn
    module_name ++ "." ++ fn

/-- The path-list scan of `_get_name_via_module`: the first entry of
`self._paths` that is not itself a file and under which the candidate
file exists. -/
def first_hit (fs : FS) (segs : List String) : List Path → Option Path
  | [] => none
  | p :: rest =>
    if fs.isFile p = false ∧ fs.pathExists (p ++ segs) = true then some p
    else first_hit fs segs rest

/-- `ModuleGraph._get_name_via_module`, without the cache write (the
caller records the returned name under the argument name; see
`find_loop_fuel` and `find_module_of_import`).  The `extrapath` branch
is taken only when the string is truthy, i.e. the segment list is
non-empty; when its candidate file does not exist, control falls
through to the `self._paths` loop. -/
def get_name_via_module (fs : FS) (paths : List Path) (imp_name : String)
    (extrapath : Option Path) : Option String :=
  match extrapath with
  | some ep =>
    if ep ≠ [] ∧ fs.pathExists (ep ++ splitSlash (dotToSlash imp_name ++ ".py")) = true then
      some (find_module_name fs (dotToSlash imp_name ++ ".py")
        ((ep ++ splitSlash (dotToSlash imp_name ++ ".py")).dropLast))
    else
      (first_hit fs (splitSlash (dotToSlash imp_name ++ ".py")) paths).map
        (fun p => find_module_name fs (dotToSlash imp_name ++ ".py")
          ((p ++ splitSlash (dotToSlash imp_name ++ ".py")).dropLast))
  | none =>
    (first_hit fs (splitSlash (dotToSlash imp_name ++ ".py")) paths).map
      (fun p => find_module_name fs (dotToSlash imp_name ++ ".py")
        ((p ++ splitSlash (dotToSlash imp_name ++ ".py")).dropLast))

/-- The `while name:` loop of `_find_module_of_import`, with explicit
fuel (each iteration strictly shortens the name, so
`name.length + 1` units of fuel always suffice — see
`find_loop_fuel_adequate`): try the direct module match, then the
package match (`_get_name_via_package` appends `.__init__`), then
retry with the last dotted segment stripped.  On success it returns
the pair of the name under which the cache entry is recorded and the
resolved module name; on exhaustion it returns `none`. -/
def find_loop_fuel (fs : FS) (paths : List Path) (extrapath : Option Path) :
    Nat → String → Option (String × String)
  | 0, _ => none
  | fuel + 1, name =>
    if name = "" then none
    else
      match get_name_via_module fs paths name extrapath with
      | some m => some (name, m)
      | none =>
        match get_name_via_module fs paths (name ++ ".__init__") extrapath with
        | some m => some (name ++ ".__init__", m)
        | none => find_loop_fuel fs paths extrapath fuel (rpartitionHead name)

/-- The `while name:` loop of `_find_module_of_import`. -/
def find_loop (fs : FS) (paths : List Path) (name : String)
    (extrapath : Option Path) : Option (String × String) :=
  find_loop_fuel fs paths extrapath (name.length + 1) name

/-- The extra search directory of `_find_module_of_import`: for a
relative import of level greater than one, trim `level - 1` trailing
segments off the origin directory (`extrapath[0:-imp_level]` after the
decrement); the result can be the empty (falsy) path.  `none`
otherwise. -/
def compute_extrapath (imp_level : Option Nat) (file_path : Path) : Option Path :=
  match imp_level with
  | some l => if 1 < l then some (file_path.take (file_path.length - (l - 1))) else none
  | none => none

/-- `ModuleGraph._find_module_of_import`.  `bi` models the union of
`sys.modules` and `sys.builtin_module_names`; the result is `none` for
such an excluded name and the (possibly fallback) resolved name
otherwise, together with the updated state. -/
def find_module_of_import (fs : FS) (bi : List String) (st : GraphState)
    (imp_name : String) (imp_level : Option Nat) (file_path : Path) :
    Option String × GraphState :=
  if imp_name ∈ bi then (none, st)
  else if strEndsWith imp_name ".*" then (some (strDropRight imp_name 2), st)
  else
    match cache_lookup st.cache (imp_name, compute_extrapath imp_level file_path) with
    | some v => (some v, st)
    | none =>
      match find_loop fs st.paths imp_name (compute_extrapath imp_level file_path) with
      | some kv =>
        (some kv.2,
          { st with cache := ((kv.1, compute_extrapath imp_level file_path), kv.2) :: st.cache })
      | none => (some imp_name, st)

/-- Resolve a list of import descriptors in order, threading the cache
state (the set comprehension in `parse_file`). -/
def resolve_all (fs : FS) (bi : List String) :
    GraphState → Path → List ImportInfo → List (Option String) × GraphState
  | st, _, [] => ([], st)
  | st, fp, i :: rest =>
    let r := find_module_of_import fs bi st i.name i.level fp
    let rs := resolve_all fs bi r.2 fp rest
    (r.1 :: rs.1, rs.2)

/-- `ModuleGraph.parse_file`. -/
def parse_file (fs : FS) (bi : List String) (st : GraphState)
    (file_name : String) (file_path : Path) : GraphState :=
  let module_name := find_module_name fs file_name file_path
  let full := file_path ++ [file_name]
  let rs := resolve_all fs bi st file_path (list_imports (fs.ast full))
  let m : Module :=
    { module_name := module_name
      file_name := file_name
      is_package := file_name == "__init__.py"
      content := fs.contents full
      imports := (rs.1.filterMap id).dedup }
  { rs.2 with modules := upsert rs.2.modules module_name m }

/-- Processing of one directory visited by `os.walk` inside
`parse_paths`: append the directory to `self._paths`, then parse every
contained file ending in `.py` other than `setup.py`. -/
def scan_dir (fs : FS) (bi : List String) (st : GraphState)
    (entry : Path × List String) : GraphState :=
  let st1 := { st with paths := st.paths ++ [entry.1] }
  entry.2.foldl
    (fun st2 file =>
      if strEndsWith file ".py" && decide (file ≠ "setup.py")
      then parse_file fs bi st2 file entry.1
      else st2)
    st1

/-- `ModuleGraph.parse_paths`.  Note the source executes `return` — not
`continue` — when a root does not exist, abandoning the remaining
roots. -/
def parse_paths (fs : FS) (bi : List String) (st : GraphState) :
    List Path → GraphState
  | [] => st
  | p :: rest =>
    if fs.pathExists p then
      parse_paths fs bi ((fs.walk p).foldl (scan_dir fs bi) st) rest
    else st

/-- Code-point comparison of strings, as Python compares them:
lexicographic on the character sequences. -/
def strLtChars : List Char → List Char → Bool
  | [], [] => false
  | [], _ :: _ => true
  | _ :: _, [] => false
  | a :: as, b :: bs =>
    if a.toNat < b.toNat then true
    else if b.toNat < a.toNat then false
    else strLtChars as bs

/-- Python `a <= b` on strings. -/
def pyStrLe (a b : String) : Bool := !(strLtChars b.data a.data)

/-- Lexicographic sort used by `toposort_flatten` (Python `sorted` on a
set of strings). -/
def sortStr (l : List String) : List String :=
  List.insertionSort (fun a b : String => pyStrLe a b = true) l

/-- One emitted level of the `toposort` loop: the keys whose remaining
dependency set is empty, in sorted order (`sorted` applied by
`toposort_flatten` to each yielded set). -/
def topo_level (data : List (String × List String)) : List String :=
  sortStr ((data.filter (fun kd => kd.2.isEmpty)).map Prod.fst)

/-- One round of removal in the `toposort` loop: drop the emitted keys
and remove them from every remaining dependency set. -/
def topo_rest (data : List (String × List String)) : List (String × List String) :=
  (data.filter (fun kd => decide (kd.1 ∉ topo_level data))).map
    (fun kd => (kd.1, kd.2.filter (fun d => decide (d ∉ topo_level data))))

/-- The loop of the `toposort` library's generator, flattened with
sorted levels and explicit fuel (each round removes at least one key,
so `data.length` units of fuel always suffice): repeatedly emit
(sorted) all keys with no remaining dependencies, remove them from the
map and from every dependency set; fail (`CircularDependencyError`)
when no key can be emitted. -/
def topo_loop_fuel : Nat → List (String × List String) → Option (List String)
  | 0, data => if data.isEmpty then some [] else none
  | fuel + 1, data =>
    if data.isEmpty then some []
    else if (topo_level data).isEmpty then none
    else (topo_loop_fuel fuel (topo_rest data)).map (fun out => topo_level data ++ out)

/-- The emission loop of the `toposort` library. -/
def topo_loop (data : List (String × List String)) : Option (List String) :=
  topo_loop_fuel data.length data

/-- First step of the `toposort` library: `v.discard (k)` on every
dependency set. -/
def discard_self (data : List (String × List String)) : List (String × List String) :=
  data.map (fun kd => (kd.1, kd.2.filter (fun d => decide (d ≠ kd.1))))

/-- Second step of the `toposort` library: the items that appear only
in dependency sets (`extra_items_in_deps`). -/
def extra_items (data : List (String × List String)) : List String :=
  (((discard_self data).flatMap Prod.snd).filter
    (fun d => decide (d ∉ data.map Prod.fst))).dedup

/-- The map handed to the emission loop: self-dependencies discarded
and every dependency-only item added with an empty dependency set. -/
def topo_prep (data : List (String × List String)) : List (String × List String) :=
  discard_self data ++ (extra_items data).map (fun e => (e, ([] : List String)))

/-- `toposort_flatten` from the external `toposort` dependency imported
by graph.py (with its default `sort=True`). -/
def toposort_flatten (data : List (String × List String)) : Option (List String) :=
  topo_loop (topo_prep data)

/-- `ModuleGraph._build_dependency_data`. -/
def build_dependency_data (modules : List (String × Module)) : Option (List String) :=
  toposort_flatten (modules.map (fun km => (km.1, km.2.imports)))

/-- The record-collection loop of `generate_data`: a missing key is a
`KeyError`, modelled as `none`. -/
def collect_records (modules : List (String × Module)) :
    List String → Option (List PackRecord)
  | [] => some []
  | n :: rest =>
    match lookupModule modules n with
    | none => none
    | some m => (collect_records modules rest).map (fun l => m.to_dict :: l)

/-- `ModuleGraph.generate_data`. -/
def generate_data (modules : List (String × Module)) : Option (List PackRecord) :=
  (build_dependency_data modules).bind (collect_records modules)

/-- A fresh `ModuleGraph` (the `_paths` list is seeded from
`sys.path`). -/
def init_state (sysPath : List Path) : GraphState :=
  { modules := [], cache := [], paths := sysPath }

/-- A whole packing run: scan the given roots, then generate the
ordered pack data. -/
def run_pack (fs : FS) (bi : List String) (sysPath : List Path)
    (roots : List Path) : Option (List PackRecord) :=
  generate_data (parse_paths fs bi (init_state sysPath) roots).modules

/-- Whether one statement sets the flag of
`_HasAbsoluteImportOfModuleCheck` for module `m`: a plain import of a
name equal to `m` or starting with `m + "."`, or a level-0 from-import
whose module is equal to `m` or starts with `m + "."`. -/
def stmt_matches_absolute (m : String) : PyStmt → Bool
  | .imp names =>
    names.any (fun n => decide (n = m) || strStartsWith n (m ++ "."))
  | .impFrom mo _ lvl =>
    decide (lvl = 0) &&
      (match mo with
       | some mm => decide (mm = m) || strStartsWith mm (m ++ ".")
       | none => false)

/-- `has_absolute_import_of_module` from checks.py: the visitor walks
every import statement of the parsed source and ors the per-statement
checks together. -/
def has_absolute_import_of_module (stmts : List PyStmt) (m : String) : Bool :=
  stmts.any (stmt_matches_absolute m)

/-- Position of the first occurrence of `a` in `l` (length of `l` when
absent): the index of a record in an emission sequence. -/
def posIn (l : List String) (a : String) : Nat :=
  match l with
  | [] => 0
  | b :: t => if b = a then 0 else posIn t a + 1

/-- A registry with every self-edge removed from the dependency sets
(used to compare against the registry the scanner actually builds). -/
def strip_self (modules : List (String × Module)) : List (String × Module) :=
  modules.map (fun km =>
    (km.1, { km.2 with imports := km.2.imports.filter (fun d => decide (d ≠ km.1)) }))

/-- A filesystem with a single file `home/proj/a.py` whose only import
statement is `import a`, which resolves back to the module itself. -/
def fs_self : FS :=
  { files := [["home", "proj", "a.py"]]
    contents := fun _ => ""
    ast := fun p => if p = ["home", "proj", "a.py"] then [.imp ["a"]] else [] }

/-- A filesystem with a single file `home/proj/a.py` whose only import
statement is `import ghost`, a name no file satisfies. -/
def fs_ghost : FS :=
  { files := [["home", "proj", "a.py"]]
    contents := fun _ => ""
    ast := fun p => if p = ["home", "proj", "a.py"] then [.imp ["ghost"]] else [] }

/-- A filesystem with a single file `r2/b.py`; the directory `r1` does
not exist. -/
def fs_c2 : FS :=
  { files := [["r2", "b.py"]]
    contents := fun _ => ""
    ast := fun _ => [] }

/-- A filesystem with a single file `home/lib/a.py`. -/
def fs_c3 : FS :=
  { files := [["home", "lib", "a.py"]]
    contents := fun _ => ""
    ast := fun _ => [] }

/-- A graph state whose search path holds the single entry `home/lib`. -/
def st_c3 : GraphState :=
  { modules := [], cache := [], paths := [["home", "lib"]] }

/-- An empty filesystem. -/
def fs_empty : FS :=
  { files := []
    contents := fun _ => ""
    ast := fun _ => [] }

/-- A filesystem with files `r/pkg/x.py`, `r/pkg/sub/mod.py` and
`r/pkg/sub/__init__.py`: `pkg` is the outermost package under root
`r`. -/
def fs_c7 : FS :=
  { files := [["r", "pkg", "x.py"], ["r", "pkg", "sub", "mod.py"],
              ["r", "pkg", "sub", "__init__.py"]]
    contents := fun _ => ""
    ast := fun _ => [] }

/-- A filesystem with the single file `r/pkg/sub.py` and no
`pkg/sub/Symbol` module or package anywhere. -/
def fs_c8 : FS :=
  { files := [["r", "pkg", "sub.py"]]
    contents := fun _ => ""
    ast := fun _ => [] }

/-- A graph state whose search path holds the single entry `r`. -/
def st_c8 : GraphState :=
  { modules := [], cache := [], paths := [["r"]] }

/-- Claim C1, counterexample: scanning `home/proj/a.py` (which imports
the unresolvable name `ghost`) registers module `proj.a` with the
dangling dependency `ghost` and no Module for `ghost`, yet pack
emission does not succeed: `generate_data` fails (the toposort output
contains `ghost`, whose registry lookup raises), so the registered
module is never emitted, contradicting the claim. -/
theorem c1_counterexample :
    (parse_paths fs_ghost [] (init_state []) [["home", "proj"]]).modules
      = [("proj.a",
          { module_name := "proj.a", file_name := "a.py", is_package := false,
            content := "", imports := ["ghost"] })] ∧
    lookupModule (parse_paths fs_ghost [] (init_state []) [["home", "proj"]]).modules
      "ghost" = none ∧
    run_pack fs_ghost [] [] [["home", "proj"]] = none := by
  refine ⟨?_, ?_, ?_⟩ <;> rfl

/-- Claim C2, counterexample: with roots `[r1, r2]` where `r1` does not
exist but `r2` does and contains the source file `r2/b.py`, the
scanner registers nothing at all — the existing root `r2` is not
walked, contradicting the claim that scanning proceeds over all
remaining roots. -/
theorem c2_counterexample :
    fs_c2.pathExists ["r1"] = false ∧
    fs_c2.pathExists ["r2"] = true ∧
    fs_c2.isFile ["r2", "b.py"] = true ∧
    (parse_paths fs_c2 [] (init_state []) [["r1"], ["r2"]]).modules = [] := by
  refine ⟨?_, ?_, ?_, ?_⟩ <;> rfl

/-- Claim C3, counterexample: the reference `a.b.*` is returned as
`a.b` immediately, but resolving the remainder `a.b` like any other
target name (per the claim) yields `lib.a` — the canonical name
derived from the file `home/lib/a.py` found after segment-shortening —
so the wildcard path performs none of the lookup steps the claim
describes. -/
theorem c3_counterexample :
    (find_module_of_import fs_c3 [] st_c3 "a.b.*" none ["x"]).1 = some "a.b" ∧
    (find_module_of_import fs_c3 [] st_c3 "a.b" none ["x"]).1 = some "lib.a" ∧
    ("a.b" : String) ≠ "lib.a" := by
  refine ⟨rfl, rfl, by decide⟩

/-- Claim C4, counterexample: resolving the name `ghost` on an empty
filesystem reaches the lookup phase, exhausts all shortenings and
falls back to the original name — and leaves the cache without any
entry for `(ghost, none)`: the state is returned unchanged,
contradicting the claim that every exhausted lookup populates the
cache. -/
theorem c4_counterexample :
    find_module_of_import fs_empty [] (init_state [["d"]]) "ghost" none ["x"]
      = (some "ghost", init_state [["d"]]) ∧
    cache_lookup
      (find_module_of_import fs_empty [] (init_state [["d"]]) "ghost" none ["x"]).2.cache
      ("ghost", none) = none := by
  refine ⟨rfl, rfl⟩

/-- Claim C5, counterexample: scanning `home/proj/a.py`, whose text is
`import a`, records the module `proj.a` whose dependency set contains
its own canonical name `proj.a` — the scanner does not ignore
self-edges when recording dependencies. -/
theorem c5_counterexample :
    lookupModule (parse_paths fs_self [] (init_state []) [["home", "proj"]]).modules
      "proj.a"
      = some { module_name := "proj.a", file_name := "a.py", is_package := false,
               content := "", imports := ["proj.a"] } := by
  rfl

/-- Claim C6, counterexample: in the registry built from
`home/proj/a.py` (`import a`) the dependency edge (`proj.a` depends on
`proj.a`) has both ends registered, pack generation succeeds with the
sequence `[proj.a]`, and the dependency's position is not strictly
less than the dependent's position — they are the same record. -/
theorem c6_counterexample :
    run_pack fs_self [] [] [["home", "proj"]]
      = some [{ name := "proj.a", is_package := false, code := "" }] ∧
    build_dependency_data (parse_paths fs_self [] (init_state []) [["home", "proj"]]).modules
      = some ["proj.a"] ∧
    (lookupModule (parse_paths fs_self [] (init_state []) [["home", "proj"]]).modules
        "proj.a").map Module.imports = some ["proj.a"] ∧
    ¬ (posIn ["proj.a"] "proj.a" < posIn ["proj.a"] "proj.a") := by
  refine ⟨rfl, rfl, rfl, by omega⟩

/-- Claim C2 (corrected): a root path that does not exist makes the
scanner return immediately — the roots before it are processed
normally, the nonexistent root and every later root are skipped; the
scan is equivalent to scanning only the longest existing-roots
prefix. -/
theorem c2_scan_stops_at_first_missing_root (fs : FS) (bi : List String) :
    ∀ (l : List Path) (st : GraphState),
      parse_paths fs bi st l
        = parse_paths fs bi st (l.takeWhile (fun p => fs.pathExists p)) := by
  intro l
  induction l with
  | nil => intro st; rfl
  | cons p rest ih =>
    intro st
    by_cases hp : fs.pathExists p = true
    · rw [List.takeWhile_cons_of_pos hp]
      show parse_paths fs bi st (p :: rest)
        = parse_paths fs bi st (p :: rest.takeWhile (fun q => fs.pathExists q))
      rw [parse_paths, parse_paths, if_pos hp, if_pos hp]
      exact ih _
    · have hp2 : fs.pathExists p = false := by
        revert hp; cases fs.pathExists p <;> simp
      rw [List.takeWhile_cons_of_neg (by simp [hp2])]
      simp [parse_paths, hp2]

/-- Claim C3 (corrected): for every non-builtin referenced name ending
in `.*`, the resolver strips the suffix and returns the remainder
immediately, without consulting the cache, the search path or the
shortening loop, and without modifying the state. -/
theorem c3_wildcard_returns_stripped (fs : FS) (bi : List String)
    (st : GraphState) (name : String) (lvl : Option Nat) (fp : Path)
    (h1 : name ∉ bi) (h2 : strEndsWith name ".*" = true) :
    find_module_of_import fs bi st name lvl fp = (some (strDropRight name 2), st) := by
  unfold find_module_of_import
  rw [if_neg h1, if_pos h2]

/-- Claim C3 (corrected), witness at a concrete input. -/
theorem c3_wildcard_returns_stripped_witness :
    find_module_of_import fs_empty [] (init_state []) "a.*" none ["x"]
      = (some "a", init_state []) := by
  rw [c3_wildcard_returns_stripped fs_empty [] (init_state []) "a.*" none ["x"]
    (by simp) (by rfl)]
  rfl

/-- Claim C4 (corrected): over the whole resolution call the only state
that can change is the resolution cache — the module registry and the
search-path list are returned unchanged — and the cache either stays
as it was (builtin/loaded exclusion, wildcard, cache hit, or an
exhausted lookup that falls back to the original name) or gains
exactly one entry (a successful lookup, recorded under the name
variant that matched, which may be a shortened name or one with the
package marker appended — not necessarily the original name). -/
theorem c4_cache_only_frame (fs : FS) (bi : List String) (st : GraphState)
    (name : String) (lvl : Option Nat) (fp : Path) :
    (find_module_of_import fs bi st name lvl fp).2.modules = st.modules ∧
    (find_module_of_import fs bi st name lvl fp).2.paths = st.paths ∧
    ((find_module_of_import fs bi st name lvl fp).2.cache = st.cache ∨
      ∃ kv, find_loop fs st.paths name (compute_extrapath lvl fp) = some kv ∧
        (find_module_of_import fs bi st name lvl fp).2.cache
          = ((kv.1, compute_extrapath lvl fp), kv.2) :: st.cache) := by
  unfold find_module_of_import
  by_cases h1 : name ∈ bi
  · rw [if_pos h1]; exact ⟨rfl, rfl, Or.inl rfl⟩
  · rw [if_neg h1]
    by_cases h2 : strEndsWith name ".*" = true
    · rw [if_pos h2]; exact ⟨rfl, rfl, Or.inl rfl⟩
    · rw [if_neg h2]
      cases hc : cache_lookup st.cache (name, compute_extrapath lvl fp) with
      | some v => exact ⟨rfl, rfl, Or.inl rfl⟩
      | none =>
        cases hf : find_loop fs st.paths name (compute_extrapath lvl fp) with
        | some kv => exact ⟨rfl, rfl, Or.inr ⟨kv, rfl, rfl⟩⟩
        | none => exact ⟨rfl, rfl, Or.inl rfl⟩

/-- A prefix characterization of Python `startswith`. -/
theorem strStartsWith_iff (s t : String) :
    strStartsWith s t = true ↔ ∃ r, s = t ++ r := by
  unfold strStartsWith
  rw [decide_eq_true_iff]
  constructor
  · rintro ⟨u, hu⟩
    refine ⟨String.mk u, ?_⟩
    cases s with
    | mk sd =>
      cases t with
      | mk td =>
        show String.mk sd = String.mk (td ++ u)
        have hu2 : td ++ u = sd := hu
        rw [hu2]
  · rintro ⟨r, hr⟩
    subst hr
    exact ⟨r.data, rfl⟩

/-- Per-statement characterization of the absolute-import check. -/
theorem stmt_matches_absolute_iff (m : String) (s : PyStmt) :
    stmt_matches_absolute m s = true ↔
      ((∃ names, s = PyStmt.imp names ∧
          ∃ n ∈ names, n = m ∨ ∃ r, n = m ++ "." ++ r) ∨
        (∃ mo names, s = PyStmt.impFrom (some mo) names 0 ∧
          (mo = m ∨ ∃ r, mo = m ++ "." ++ r))) := by
  cases s with
  | imp names =>
    simp [stmt_matches_absolute, List.any_eq_true, strStartsWith_iff]
  | impFrom mo names lvl =>
    cases mo with
    | none => simp [stmt_matches_absolute]
    | some mm =>
      cases lvl with
      | zero => simp [stmt_matches_absolute, strStartsWith_iff]
      | succ k => simp [stmt_matches_absolute]

/-- Claim C10: `has_absolute_import_of_module (source, M)` returns true
iff the source contains a plain import statement with an alias equal
to `M` or a dotted submodule of `M` (a name of the shape `M.rest`), or
a level-0 from-import whose module is exactly `M` or a dotted
submodule of `M`; names merely having `M` as a string prefix never
match (the comparison requires the following dot), and relative
from-imports (nonzero level) never match. -/
theorem c10_absolute_import_classifier (stmts : List PyStmt) (m : String) :
    has_absolute_import_of_module stmts m = true ↔
      ∃ s ∈ stmts,
        (∃ names, s = PyStmt.imp names ∧
          ∃ n ∈ names, n = m ∨ ∃ r, n = m ++ "." ++ r) ∨
        (∃ mo names, s = PyStmt.impFrom (some mo) names 0 ∧
          (mo = m ∨ ∃ r, mo = m ++ "." ++ r)) := by
  unfold has_absolute_import_of_module
  rw [List.any_eq_true]
  constructor
  · rintro ⟨s, hs, hm⟩
    exact ⟨s, hs, (stmt_matches_absolute_iff m s).mp hm⟩
  · rintro ⟨s, hs, hm⟩
    exact ⟨s, hs, (stmt_matches_absolute_iff m s).mpr hm⟩

/-- Claim C7: in a tree where `pkg` is the outermost package (the
directory `pkg` contains a python file, its parent contains none), the
file `pkg/sub/mod.py` derives the canonical name `pkg.sub.mod` and the
package marker `pkg/sub/__init__.py` derives `pkg.sub`. -/
theorem c7_name_derivation (fs : FS) (d : Path) (hd : d ≠ [])
    (hpkg : (fs.listdir (d ++ ["pkg"])).any py_entry = true)
    (hparent : (fs.listdir d).any py_entry = false) :
    find_module_name fs "mod.py" (d ++ ["pkg", "sub"]) = "pkg.sub.mod" ∧
    find_module_name fs "__init__.py" (d ++ ["pkg", "sub"]) = "pkg.sub" := by
  have h1 : (d ++ ["pkg", "sub"]).reverse = "sub" :: "pkg" :: d.reverse := by
    simp
  have hparts : collect_parts fs ((d ++ ["pkg", "sub"]).reverse) = ["sub", "pkg"] := by
    rw [h1]
    simp only [collect_parts, List.reverse_cons, List.reverse_reverse]
    simp [hpkg, hparent]
  constructor
  · simp only [find_module_name, hparts]
    rfl
  · simp only [find_module_name, hparts]
    rfl

/-- Claim C7, witness: the concrete tree `r/pkg/x.py`,
`r/pkg/sub/mod.py`, `r/pkg/sub/__init__.py`. -/
theorem c7_name_derivation_witness :
    find_module_name fs_c7 "mod.py" (["r"] ++ ["pkg", "sub"]) = "pkg.sub.mod" ∧
    find_module_name fs_c7 "__init__.py" (["r"] ++ ["pkg", "sub"]) = "pkg.sub" :=
  c7_name_derivation fs_c7 ["r"] (by simp) (by rfl) (by rfl)

/-- Membership in a sorted level is membership before sorting. -/
theorem mem_sortStr (a : String) (l : List String) : a ∈ sortStr l ↔ a ∈ l :=
  (List.perm_insertionSort (fun a b : String => pyStrLe a b = true) l).mem_iff

/-- The keys of `discard_self` are the keys of the data. -/
theorem discard_self_keys (data : List (String × List String)) :
    (discard_self data).map Prod.fst = data.map Prod.fst := by
  unfold discard_self
  rw [List.map_map]
  rfl

/-- Every key of the map survives into the output of the toposort
emission loop. -/
theorem topo_loop_fuel_mem :
    ∀ (fuel : Nat) (data : List (String × List String)) (out : List String),
      topo_loop_fuel fuel data = some out → ∀ k ∈ data.map Prod.fst, k ∈ out := by
  intro fuel
  induction fuel with
  | zero =>
    intro data out hout k hk
    cases data with
    | nil => simp at hk
    | cons a rest => simp [topo_loop_fuel] at hout
  | succ n ih =>
    intro data out hout k hk
    cases data with
    | nil => simp at hk
    | cons a rest0 =>
      rw [topo_loop_fuel] at hout
      rw [if_neg (by simp)] at hout
      by_cases hoe : (topo_level (a :: rest0)).isEmpty = true
      · rw [if_pos hoe] at hout
        exact absurd hout (by simp)
      · rw [if_neg hoe] at hout
        cases hrec : topo_loop_fuel n (topo_rest (a :: rest0)) with
        | none => rw [hrec] at hout; exact absurd hout (by simp)
        | some out2 =>
          rw [hrec] at hout
          have hout2 : out = topo_level (a :: rest0) ++ out2 := by
            simpa using hout.symm
          subst hout2
          by_cases hmem : k ∈ topo_level (a :: rest0)
          · exact List.mem_append_left _ hmem
          · apply List.mem_append_right
            apply ih (topo_rest (a :: rest0)) out2 hrec k
            rcases List.mem_map.mp hk with ⟨kd, hkd, hfst⟩
            apply List.mem_map.mpr
            refine ⟨(kd.1, kd.2.filter (fun d => decide (d ∉ topo_level (a :: rest0)))), ?_, hfst⟩
            unfold topo_rest
            apply List.mem_map.mpr
            refine ⟨kd, ?_, rfl⟩
            apply List.mem_filter.mpr
            refine ⟨hkd, ?_⟩
            rw [hfst]
            simp [hmem]

/-- A name that occurs as a non-self dependency of some entry is a key
of the prepared toposort map (either a real key or an extra item). -/
theorem mem_topo_prep_keys (data : List (String × List String)) (g : String)
    (h : ∃ kd ∈ data, g ∈ kd.2 ∧ g ≠ kd.1) :
    g ∈ (topo_prep data).map Prod.fst := by
  unfold topo_prep
  rw [List.map_append]
  by_cases hk : g ∈ data.map Prod.fst
  · apply List.mem_append_left
    rw [discard_self_keys]
    exact hk
  · apply List.mem_append_right
    have hmape : ((extra_items data).map
        (fun e => (e, ([] : List String)))).map Prod.fst = extra_items data := by
      rw [List.map_map]
      exact List.map_id _
    rw [hmape]
    unfold extra_items
    apply List.mem_dedup.mpr
    apply List.mem_filter.mpr
    constructor
    · rcases h with ⟨kd, hkd, hg2, hgne⟩
      apply List.mem_flatMap.mpr
      refine ⟨(kd.1, kd.2.filter (fun x => decide (x ≠ kd.1))), ?_, ?_⟩
      · exact List.mem_map.mpr ⟨kd, hkd, rfl⟩
      · exact List.mem_filter.mpr ⟨hg2, by simp [hgne]⟩
    · simp [hk]

/-- A key absent from the registry makes the registry lookup fail. -/
theorem lookupModule_eq_none (modules : List (String × Module)) (g : String)
    (h : g ∉ modules.map Prod.fst) : lookupModule modules g = none := by
  unfold lookupModule
  have hfind : modules.find? (fun e => decide (e.1 = g)) = none := by
    apply List.find?_eq_none.mpr
    intro x hx
    simp only [decide_eq_true_eq]
    intro hcon
    exact h (List.mem_map.mpr ⟨x, hx, hcon⟩)
  rw [hfind]
  rfl

/-- A single failing registry lookup makes the whole record collection
fail (the `KeyError` in `generate_data`). -/
theorem collect_records_none (modules : List (String × Module))
    (names : List String) (g : String) (hg : g ∈ names)
    (hnone : lookupModule modules g = none) :
    collect_records modules names = none := by
  induction names with
  | nil => simp at hg
  | cons n rest ih =>
    rcases List.mem_cons.mp hg with heq | htail
    · subst heq
      unfold collect_records
      rw [hnone]
    · unfold collect_records
      cases ho : lookupModule modules n with
      | none => rfl
      | some m => rw [ih htail]; rfl

/-- Claim C1 (corrected): when an import resolves (via the fallback or
otherwise) to a name with no matching Module in the registry, the
orderer does treat the dangling edge as satisfied, but it emits the
unresolved name as an item of its own in the order, and pack emission
then fails on the registry lookup for that name (a `KeyError`): no
pack data is produced at all, rather than every registered module
being emitted. -/
theorem c1_dangling_blocks_emission (modules : List (String × Module))
    (g k : String) (m : Module)
    (hkm : (k, m) ∈ modules) (hg : g ∈ m.imports)
    (hnreg : g ∉ modules.map Prod.fst) :
    generate_data modules = none := by
  unfold generate_data
  cases hbd : build_dependency_data modules with
  | none => rfl
  | some order =>
    have horder : g ∈ order := by
      unfold build_dependency_data toposort_flatten topo_loop at hbd
      apply topo_loop_fuel_mem _ _ _ hbd
      apply mem_topo_prep_keys
      refine ⟨(k, m.imports), List.mem_map.mpr ⟨(k, m), hkm, rfl⟩, hg, ?_⟩
      intro hcon
      subst hcon
      exact hnreg (List.mem_map.mpr ⟨(g, m), hkm, rfl⟩)
    show collect_records modules order = none
    exact collect_records_none modules order g horder (lookupModule_eq_none _ _ hnreg)

/-- Claim C1 (corrected), witness: the registry scanned from
`home/proj/a.py` importing the unresolvable `ghost`. -/
theorem c1_dangling_blocks_emission_witness :
    generate_data
      [("proj.a",
        { module_name := "proj.a", file_name := "a.py", is_package := false,
          content := "", imports := ["ghost"] })] = none :=
  c1_dangling_blocks_emission _ "ghost" "proj.a"
    { module_name := "proj.a", file_name := "a.py", is_package := false,
      content := "", imports := ["ghost"] }
    (by simp) (by simp) (by simp)

/-- Filtering twice with the same predicate filters once. -/
theorem filter_idem {α : Type} (p : α → Bool) (l : List α) :
    (l.filter p).filter p = l.filter p := by
  induction l with
  | nil => rfl
  | cons a t ih =>
    by_cases hp : p a = true
    · rw [List.filter_cons_of_pos hp, List.filter_cons_of_pos hp, ih]
    · have hp2 : p a = false := by revert hp; cases p a <;> simp
      rw [List.filter_cons_of_neg (by simp [hp2])]
      exact ih

/-- Discarding self-edges from the toposort input built from a
registry already stripped of self-edges gives the same map as from the
original registry. -/
theorem strip_self_discard (modules : List (String × Module)) :
    discard_self ((strip_self modules).map (fun km => (km.1, km.2.imports)))
      = discard_self (modules.map (fun km => (km.1, km.2.imports))) := by
  unfold discard_self strip_self
  rw [List.map_map, List.map_map, List.map_map]
  apply List.map_congr_left
  intro km _
  show ((km.1,
      (km.2.imports.filter (fun d => decide (d ≠ km.1))).filter
        (fun d => decide (d ≠ km.1))) : String × List String)
    = (km.1, km.2.imports.filter (fun d => decide (d ≠ km.1)))
  rw [filter_idem]

/-- Stripping self-edges does not change the registry keys. -/
theorem strip_self_keys (modules : List (String × Module)) :
    ((strip_self modules).map (fun km => (km.1, km.2.imports))).map Prod.fst
      = (modules.map (fun km => (km.1, km.2.imports))).map Prod.fst := by
  unfold strip_self
  rw [List.map_map, List.map_map, List.map_map]
  rfl

/-- Stripping self-edges does not change the emission order. -/
theorem strip_self_build (modules : List (String × Module)) :
    build_dependency_data (strip_self modules) = build_dependency_data modules := by
  unfold build_dependency_data toposort_flatten topo_prep extra_items
  rw [strip_self_discard, strip_self_keys]

/-- Stripping self-edges changes neither lookups up to `to_dict` … -/
theorem strip_self_lookup (modules : List (String × Module)) (n : String) :
    (lookupModule (strip_self modules) n).map Module.to_dict
      = (lookupModule modules n).map Module.to_dict := by
  induction modules with
  | nil => rfl
  | cons km rest ih =>
    by_cases h : km.1 = n
    · unfold strip_self lookupModule
      rw [List.map_cons, List.find?_cons_of_pos _ (by simp [h]),
        List.find?_cons_of_pos _ (by simp [h])]
      rfl
    · unfold strip_self lookupModule
      rw [List.map_cons, List.find?_cons_of_neg _ (by simp [h]),
        List.find?_cons_of_neg _ (by simp [h])]
      exact ih

/-- … nor the collected records. -/
theorem strip_self_collect (modules : List (String × Module)) (names : List String) :
    collect_records (strip_self modules) names = collect_records modules names := by
  induction names with
  | nil => rfl
  | cons n rest ih =>
    have h := strip_self_lookup modules n
    unfold collect_records
    cases ho : lookupModule modules n with
    | none =>
      rw [ho] at h
      have h2 : lookupModule (strip_self modules) n = none := by
        cases hs : lookupModule (strip_self modules) n with
        | none => rfl
        | some m2 => rw [hs] at h; exact absurd h (by simp)
      rw [h2]
    | some m =>
      rw [ho] at h
      cases hs : lookupModule (strip_self modules) n with
      | none => rw [hs] at h; exact absurd h (by simp)
      | some m2 =>
        rw [hs] at h
        have hdict : m2.to_dict = m.to_dict := by simpa using h
        show Option.map (fun l => m2.to_dict :: l) (collect_records (strip_self modules) rest)
          = Option.map (fun l => m.to_dict :: l) (collect_records modules rest)
        rw [ih, hdict]

/-- Claim C5 (corrected): self-edges are not ignored when dependencies
are recorded — a module's dependency set can contain the module's own
canonical name (see the counterexample) — but they are ignored by the
ordering phase: the generated pack data of any registry equals that of
the registry with every self-edge removed. -/
theorem c5_self_edges_discarded_by_sort (modules : List (String × Module)) :
    generate_data modules = generate_data (strip_self modules) := by
  unfold generate_data
  rw [strip_self_build]
  cases hb : build_dependency_data modules with
  | none => rfl
  | some order =>
    show collect_records modules order = collect_records (strip_self modules) order
    exact (strip_self_collect modules order).symm

/-- The path scan finds nothing when every entry misses. -/
theorem first_hit_none (fs : FS) (segs : List String) (ps : List Path)
    (h : ∀ p ∈ ps, fs.isFile p = true ∨ fs.pathExists (p ++ segs) = false) :
    first_hit fs segs ps = none := by
  induction ps with
  | nil => rfl
  | cons p rest ih =>
    unfold first_hit
    rw [if_neg ?_]
    · exact ih (fun q hq => h q (List.mem_cons_of_mem p hq))
    · rcases h p (List.mem_cons_self p rest) with h1 | h2
      · intro hcon; rw [h1] at hcon; exact absurd hcon.1 (by simp)
      · intro hcon; rw [h2] at hcon; exact absurd hcon.2 (by simp)

/-- The path scan returns the first entry that is not a file and under
which the candidate exists. -/
theorem first_hit_found (fs : FS) (segs : List String) (ps1 ps2 : List Path) (d : Path)
    (hmiss : ∀ p ∈ ps1, fs.isFile p = true ∨ fs.pathExists (p ++ segs) = false)
    (hd1 : fs.isFile d = false) (hd2 : fs.pathExists (d ++ segs) = true) :
    first_hit fs segs (ps1 ++ d :: ps2) = some d := by
  induction ps1 with
  | nil =>
    show first_hit fs segs (d :: ps2) = some d
    unfold first_hit
    rw [if_pos ⟨hd1, hd2⟩]
  | cons p rest ih =>
    show first_hit fs segs (p :: (rest ++ d :: ps2)) = some d
    unfold first_hit
    rw [if_neg ?_]
    · exact ih (fun q hq => hmiss q (List.mem_cons_of_mem p hq))
    · rcases hmiss p (List.mem_cons_self p rest) with h1 | h2
      · intro hcon; rw [h1] at hcon; exact absurd hcon.1 (by simp)
      · intro hcon; rw [h2] at hcon; exact absurd hcon.2 (by simp)

/-- With no extra search directory, `_get_name_via_module` is exactly
the path-list scan. -/
theorem get_name_via_module_extra_none (fs : FS) (paths : List Path) (name : String) :
    get_name_via_module fs paths name none
      = (first_hit fs (splitSlash (dotToSlash name ++ ".py")) paths).map
          (fun p => find_module_name fs (dotToSlash name ++ ".py")
            ((p ++ splitSlash (dotToSlash name ++ ".py")).dropLast)) := rfl

/-- One unfolding of the resolver's shortening loop on a non-empty
name. -/
theorem find_loop_fuel_step (fs : FS) (paths : List Path) (ep : Option Path)
    (fuel : Nat) (name : String) (hname : ¬ name = "") :
    find_loop_fuel fs paths ep (fuel + 1) name =
      match get_name_via_module fs paths name ep with
      | some m => some (name, m)
      | none =>
        match get_name_via_module fs paths (name ++ ".__init__") ep with
        | some m => some (name ++ ".__init__", m)
        | none => find_loop_fuel fs paths ep fuel (rpartitionHead name) := by
  rw [find_loop_fuel]
  rw [if_neg hname]

/-- Claim C8: a non-builtin absolute reference `pkg.sub.Symbol` with no
`pkg/sub/Symbol.py` file and no `pkg/sub/Symbol` package anywhere on
the search path, but with `pkg/sub.py` under the search-path entry `d`
(every earlier entry missing it), resolves to the canonical name
`pkg.sub`: the resolver strips the last dotted segment and retries the
direct-module and package lookups with the shortened name. -/
theorem c8_resolver_shortening (fs : FS) (bi : List String) (st : GraphState)
    (fp : Path) (ps1 ps2 : List Path) (d : Path)
    (hpaths : st.paths = ps1 ++ d :: ps2)
    (hbi : "pkg.sub.Symbol" ∉ bi)
    (hcache : cache_lookup st.cache ("pkg.sub.Symbol", none) = none)
    (hmiss1 : ∀ p ∈ st.paths, fs.isFile p = true ∨
      fs.pathExists (p ++ ["pkg", "sub", "Symbol.py"]) = false)
    (hmiss2 : ∀ p ∈ st.paths, fs.isFile p = true ∨
      fs.pathExists (p ++ ["pkg", "sub", "Symbol", "__init__.py"]) = false)
    (hmiss3 : ∀ p ∈ ps1, fs.isFile p = true ∨
      fs.pathExists (p ++ ["pkg", "sub.py"]) = false)
    (hd0 : d ≠ [])
    (hd1 : fs.isFile d = false)
    (hd2 : fs.pathExists (d ++ ["pkg", "sub.py"]) = true)
    (hd3 : (fs.listdir d).any py_entry = false) :
    (find_module_of_import fs bi st "pkg.sub.Symbol" none fp).1 = some "pkg.sub" := by
  have hfm : find_module_name fs "pkg/sub.py" (d ++ ["pkg"]) = "pkg.sub" := by
    have h1 : (d ++ ["pkg"]).reverse = "pkg" :: d.reverse := by simp
    have hparts : collect_parts fs ((d ++ ["pkg"]).reverse) = ["pkg"] := by
      rw [h1]
      simp only [collect_parts, List.reverse_reverse]
      simp [hd3]
    simp only [find_module_name, hparts]
    rfl
  have hm1 : get_name_via_module fs st.paths "pkg.sub.Symbol" none = none := by
    rw [get_name_via_module_extra_none]
    rw [show splitSlash (dotToSlash "pkg.sub.Symbol" ++ ".py")
        = ["pkg", "sub", "Symbol.py"] from rfl]
    rw [first_hit_none fs _ _ hmiss1]
    rfl
  have hm2 : get_name_via_module fs st.paths ("pkg.sub.Symbol" ++ ".__init__") none = none := by
    rw [get_name_via_module_extra_none]
    rw [show splitSlash (dotToSlash ("pkg.sub.Symbol" ++ ".__init__") ++ ".py")
        = ["pkg", "sub", "Symbol", "__init__.py"] from rfl]
    rw [first_hit_none fs _ _ hmiss2]
    rfl
  have hm3 : get_name_via_module fs st.paths "pkg.sub" none = some "pkg.sub" := by
    rw [get_name_via_module_extra_none]
    rw [show splitSlash (dotToSlash "pkg.sub" ++ ".py") = ["pkg", "sub.py"] from rfl]
    rw [hpaths, first_hit_found fs ["pkg", "sub.py"] ps1 ps2 d hmiss3 hd1 hd2]
    show some (find_module_name fs (dotToSlash "pkg.sub" ++ ".py")
      ((d ++ ["pkg", "sub.py"]).dropLast)) = some "pkg.sub"
    have hdrop : (d ++ ["pkg", "sub.py"]).dropLast = d ++ ["pkg"] := by
      rw [show (d ++ ["pkg", "sub.py"]) = (d ++ ["pkg"]) ++ ["sub.py"] by simp]
      exact List.dropLast_concat
    rw [hdrop]
    rw [show (dotToSlash "pkg.sub" ++ ".py") = "pkg/sub.py" from rfl]
    rw [hfm]
  have hloop : find_loop fs st.paths "pkg.sub.Symbol" none = some ("pkg.sub", "pkg.sub") := by
    unfold find_loop
    show find_loop_fuel fs st.paths none (14 + 1) "pkg.sub.Symbol" = _
    rw [find_loop_fuel_step fs st.paths none 14 "pkg.sub.Symbol" (by decide)]
    rw [hm1, hm2]
    rw [show rpartitionHead "pkg.sub.Symbol" = "pkg.sub" from rfl]
    show find_loop_fuel fs st.paths none (13 + 1) "pkg.sub" = _
    rw [find_loop_fuel_step fs st.paths none 13 "pkg.sub" (by decide)]
    rw [hm3]
  unfold find_module_of_import
  rw [if_neg hbi, if_neg (by decide)]
  rw [show compute_extrapath none fp = (none : Option Path) from rfl]
  rw [hcache, hloop]

/-- Claim C8, witness: the tree `r/pkg/sub.py` with search path
`[r]`. -/
theorem c8_resolver_shortening_witness :
    (find_module_of_import fs_c8 [] st_c8 "pkg.sub.Symbol" none ["x"]).1
      = some "pkg.sub" :=
  c8_resolver_shortening fs_c8 [] st_c8 ["x"] [] [] ["r"] rfl (by simp) rfl
    (by decide) (by decide) (by decide) (by decide) rfl rfl rfl

/-- Resolution of a builtin or already-loaded name. -/
theorem fmi_builtin (fs : FS) (bi : List String) (st : GraphState)
    (name : String) (lvl : Option Nat) (fp : Path) (h1 : name ∈ bi) :
    find_module_of_import fs bi st name lvl fp = (none, st) := by
  unfold find_module_of_import
  rw [if_pos h1]

/-- Resolution of a wildcard reference. -/
theorem fmi_wildcard (fs : FS) (bi : List String) (st : GraphState)
    (name : String) (lvl : Option Nat) (fp : Path)
    (h1 : name ∉ bi) (h2 : strEndsWith name ".*" = true) :
    find_module_of_import fs bi st name lvl fp = (some (strDropRight name 2), st) := by
  unfold find_module_of_import
  rw [if_neg h1, if_pos h2]

/-- Resolution of a name that reaches the lookup phase. -/
theorem fmi_lookup (fs : FS) (bi : List String) (st : GraphState)
    (name : String) (lvl : Option Nat) (fp : Path)
    (h1 : name ∉ bi) (h2 : strEndsWith name ".*" = false) :
    find_module_of_import fs bi st name lvl fp =
      match cache_lookup st.cache (name, compute_extrapath lvl fp) with
      | some v => (some v, st)
      | none =>
        match find_loop fs st.paths name (compute_extrapath lvl fp) with
        | some kv =>
          (some kv.2,
            { st with cache := ((kv.1, compute_extrapath lvl fp), kv.2) :: st.cache })
        | none => (some name, st) := by
  unfold find_module_of_import
  rw [if_neg h1, if_neg (by simp [h2])]

/-- A cache lookup hits a matching newest entry. -/
theorem cache_lookup_cons_hit (c : List ((String × Option Path) × String))
    (k : String × Option Path) (v : String) :
    cache_lookup ((k, v) :: c) k = some v := by
  unfold cache_lookup
  rw [List.find?_cons_of_pos _ (by simp)]
  rfl

/-- A cache lookup skips a non-matching newest entry. -/
theorem cache_lookup_cons_miss (c : List ((String × Option Path) × String))
    (e : (String × Option Path) × String) (k : String × Option Path)
    (h : e.1 ≠ k) :
    cache_lookup (e :: c) k = cache_lookup c k := by
  unfold cache_lookup
  rw [List.find?_cons_of_neg _ (by simp [h])]

/-- Resolving the same descriptor again, right after a first
resolution, gives the same answer: on a cache hit or an unchanged
state this is immediate, and after a successful lookup either the new
cache entry answers the repeat (when it was recorded under the
original name) or the repeat misses the cache again and the pure
filesystem search returns the same result. -/
theorem fmi_idempotent (fs : FS) (bi : List String) (st : GraphState)
    (name : String) (lvl : Option Nat) (fp : Path) :
    (find_module_of_import fs bi
        (find_module_of_import fs bi st name lvl fp).2 name lvl fp).1
      = (find_module_of_import fs bi st name lvl fp).1 := by
  by_cases h1 : name ∈ bi
  · have e1 := fmi_builtin fs bi st name lvl fp h1
    have hsnd : (find_module_of_import fs bi st name lvl fp).2 = st := by rw [e1]
    rw [hsnd]
  · by_cases h2 : strEndsWith name ".*" = true
    · have e1 := fmi_wildcard fs bi st name lvl fp h1 h2
      have hsnd : (find_module_of_import fs bi st name lvl fp).2 = st := by rw [e1]
      rw [hsnd]
    · have h2f : strEndsWith name ".*" = false := by
        revert h2; cases strEndsWith name ".*" <;> simp
      cases hc : cache_lookup st.cache (name, compute_extrapath lvl fp) with
      | some v =>
        have e1 : find_module_of_import fs bi st name lvl fp = (some v, st) := by
          rw [fmi_lookup fs bi st name lvl fp h1 h2f, hc]
        have hsnd : (find_module_of_import fs bi st name lvl fp).2 = st := by rw [e1]
        rw [hsnd]
      | none =>
        cases hf : find_loop fs st.paths name (compute_extrapath lvl fp) with
        | none =>
          have e1 : find_module_of_import fs bi st name lvl fp = (some name, st) := by
            rw [fmi_lookup fs bi st name lvl fp h1 h2f, hc, hf]
          have hsnd : (find_module_of_import fs bi st name lvl fp).2 = st := by rw [e1]
          rw [hsnd]
        | some kv =>
          have e1 : find_module_of_import fs bi st name lvl fp =
              (some kv.2,
                { st with cache :=
                    ((kv.1, compute_extrapath lvl fp), kv.2) :: st.cache }) := by
            rw [fmi_lookup fs bi st name lvl fp h1 h2f, hc, hf]
          rw [e1]
          by_cases hk : kv.1 = name
          · rw [fmi_lookup fs bi _ name lvl fp h1 h2f]
            subst hk
            rw [show ({ st with cache :=
                ((kv.1, compute_extrapath lvl fp), kv.2) :: st.cache } : GraphState).cache
              = ((kv.1, compute_extrapath lvl fp), kv.2) :: st.cache from rfl]
            rw [cache_lookup_cons_hit]
          · rw [fmi_lookup fs bi _ name lvl fp h1 h2f]
            rw [show ({ st with cache :=
                ((kv.1, compute_extrapath lvl fp), kv.2) :: st.cache } : GraphState).cache
              = ((kv.1, compute_extrapath lvl fp), kv.2) :: st.cache from rfl]
            rw [cache_lookup_cons_miss _ _ _ (by simp [hk])]
            rw [hc]
            rw [show ({ st with cache :=
                ((kv.1, compute_extrapath lvl fp), kv.2) :: st.cache } : GraphState).paths
              = st.paths from rfl]
            rw [hf]

/-- Exhausted fuel on an empty map still yields the empty order. -/
theorem topo_loop_fuel_nil (n : Nat) : topo_loop_fuel n [] = some [] := by
  cases n <;> rfl

/-- The dependency sets of an import-free registry flatten to
nothing. -/
theorem flatMap_snd_nil (modules : List (String × Module)) :
    ((modules.map (fun km => (km.1, ([] : List String)))).flatMap Prod.snd) = [] := by
  induction modules with
  | nil => rfl
  | cons km rest ih => simpa using ih

/-- With no dependencies at all, the emitted order is exactly the
lexicographically sorted key list (the toposort tie-breaking rule). -/
theorem build_no_deps_sorted (modules : List (String × Module))
    (h : ∀ km ∈ modules, km.2.imports = []) :
    build_dependency_data modules = some (sortStr (modules.map Prod.fst)) := by
  have hD : modules.map (fun km => ((fun km : String × Module => (km.1, km.2.imports)) km))
      = modules.map (fun km => (km.1, ([] : List String))) := by
    apply List.map_congr_left
    intro km hkm
    show (km.1, km.2.imports) = (km.1, ([] : List String))
    rw [h km hkm]
  unfold build_dependency_data toposort_flatten topo_prep extra_items discard_self
  rw [hD]
  have hD2 : (modules.map (fun km => (km.1, ([] : List String)))).map
      (fun kd => (kd.1, kd.2.filter (fun d => decide (d ≠ kd.1))))
      = modules.map (fun km => (km.1, ([] : List String))) := by
    rw [List.map_map]
    rfl
  rw [hD2, flatMap_snd_nil]
  simp only [List.filter_nil, List.dedup_nil, List.map_nil, List.append_nil]
  cases hm : modules with
  | nil => rfl
  | cons km rest =>
    unfold topo_loop
    have hlen : ((km :: rest).map (fun km => (km.1, ([] : List String)))).length
        = rest.length + 1 := by simp
    rw [hlen]
    rw [topo_loop_fuel]
    rw [if_neg (by simp)]
    have hfilter : ((km :: rest).map (fun km => (km.1, ([] : List String)))).filter
        (fun kd => kd.2.isEmpty) = (km :: rest).map (fun km => (km.1, ([] : List String))) := by
      apply List.filter_eq_self.mpr
      intro kd hkd
      rcases List.mem_map.mp hkd with ⟨km2, _, hkm2⟩
      rw [← hkm2]
      rfl
    have hkeys : (((km :: rest).map (fun km => (km.1, ([] : List String)))).map Prod.fst)
        = (km :: rest).map Prod.fst := by
      rw [List.map_map]
      rfl
    have hlevel : topo_level ((km :: rest).map (fun km => (km.1, ([] : List String))))
        = sortStr ((km :: rest).map Prod.fst) := by
      unfold topo_level
      rw [hfilter, hkeys]
    rw [hlevel]
    rw [if_neg ?_]
    · have hrest : topo_rest ((km :: rest).map (fun km => (km.1, ([] : List String)))) = [] := by
        unfold topo_rest
        rw [hlevel]
        rw [List.filter_eq_nil_iff.mpr ?_]
        · rfl
        · intro kd hkd
          have hmem : kd.1 ∈ sortStr ((km :: rest).map Prod.fst) := by
            rw [mem_sortStr]
            rcases List.mem_map.mp hkd with ⟨km2, hkm2, heq⟩
            exact List.mem_map.mpr ⟨km2, hkm2, by rw [← heq]⟩
          revert hmem
          simp
      rw [hrest, topo_loop_fuel_nil]
      simp
    · have hne : km.1 ∈ sortStr ((km :: rest).map Prod.fst) := by
        rw [mem_sortStr]
        exact List.mem_map.mpr ⟨km, List.mem_cons_self _ _, rfl⟩
      intro hcon
      rw [List.isEmpty_iff.mp hcon] at hne
      simp at hne

/-- Claim C9: packing is deterministic.  In the embedding every phase
is a pure function of the filesystem, the loaded-module set, the
seeded search path and the root list, so two runs over the same
unchanged state produce identical record sequences; resolving the same
reference from the same context twice yields the same canonical name
even though the state threads through the cache; and ties among
independent nodes are broken by the fixed lexicographic rule of the
sorted toposort levels. -/
theorem c9_determinism :
    (∀ (fs : FS) (bi : List String) (st : GraphState) (name : String)
        (lvl : Option Nat) (fp : Path),
      (find_module_of_import fs bi
          (find_module_of_import fs bi st name lvl fp).2 name lvl fp).1
        = (find_module_of_import fs bi st name lvl fp).1) ∧
    (∀ (fs : FS) (bi : List String) (sysPath : List Path) (roots : List Path),
      run_pack fs bi sysPath roots = run_pack fs bi sysPath roots) ∧
    (∀ modules : List (String × Module), (∀ km ∈ modules, km.2.imports = []) →
      build_dependency_data modules = some (sortStr (modules.map Prod.fst))) :=
  ⟨fmi_idempotent, fun _ _ _ _ => rfl, build_no_deps_sorted⟩

/-- Claim C9, witness: two independent modules are emitted in sorted
name order, and a concrete repeated resolution agrees with the
first. -/
theorem c9_determinism_witness :
    build_dependency_data
      [("b", { module_name := "b", file_name := "b.py", is_package := false,
               content := "", imports := [] }),
       ("a", { module_name := "a", file_name := "a.py", is_package := false,
               content := "", imports := [] })] = some ["a", "b"] := by
  have h := c9_determinism.2.2
    [("b", { module_name := "b", file_name := "b.py", is_package := false,
             content := "", imports := [] }),
     ("a", { module_name := "a", file_name := "a.py", is_package := false,
             content := "", imports := [] })]
    (by decide)
  rw [h]
  rfl

/-- A present element's first position is inside the list. -/
theorem posIn_lt_length_of_mem (l : List String) (a : String) (h : a ∈ l) :
    posIn l a < l.length := by
  induction l with
  | nil => simp at h
  | cons b t ih =>
    show (if b = a then 0 else posIn t a + 1) < t.length + 1
    by_cases hb : b = a
    · rw [if_pos hb]; exact Nat.succ_pos _
    · rw [if_neg hb]
      have ht : a ∈ t := by
        rcases List.mem_cons.mp h with h1 | h1
        · exact absurd h1.symm hb
        · exact h1
      exact Nat.succ_lt_succ (ih ht)

/-- Positions in an append, left occurrence. -/
theorem posIn_append_left (xs ys : List String) (a : String) (h : a ∈ xs) :
    posIn (xs ++ ys) a = posIn xs a := by
  induction xs with
  | nil => simp at h
  | cons b t ih =>
    show (if b = a then 0 else posIn (t ++ ys) a + 1)
      = (if b = a then 0 else posIn t a + 1)
    by_cases hb : b = a
    · rw [if_pos hb, if_pos hb]
    · have ht : a ∈ t := by
        rcases List.mem_cons.mp h with h1 | h1
        · exact absurd h1.symm hb
        · exact h1
      rw [if_neg hb, if_neg hb, ih ht]

/-- Positions in an append, first occurrence on the right. -/
theorem posIn_append_right (xs ys : List String) (a : String) (h : a ∉ xs) :
    posIn (xs ++ ys) a = xs.length + posIn ys a := by
  induction xs with
  | nil => simp
  | cons b t ih =>
    show (if b = a then 0 else posIn (t ++ ys) a + 1) = t.length + 1 + posIn ys a
    have hb : b ≠ a := fun hcon => h (hcon ▸ List.mem_cons_self b t)
    rw [if_neg hb, ih (fun hcon => h (List.mem_cons_of_mem b hcon))]
    omega

/-- With distinct keys an association is unique. -/
theorem assoc_uniq {β : Type} (l : List (String × β)) (k : String) (a b : β)
    (hnodup : (l.map Prod.fst).Nodup)
    (ha : (k, a) ∈ l) (hb : (k, b) ∈ l) : a = b := by
  induction l with
  | nil => simp at ha
  | cons e rest ih =>
    rw [List.map_cons, List.nodup_cons] at hnodup
    rcases List.mem_cons.mp ha with ha1 | ha1 <;> rcases List.mem_cons.mp hb with hb1 | hb1
    · have heq : (k, a) = (k, b) := ha1.trans hb1.symm
      have := Prod.mk.injEq k a k b ▸ heq
      exact this.2
    · exfalso
      apply hnodup.1
      have hk : e.1 = k := by rw [← ha1]
      rw [hk]
      exact List.mem_map.mpr ⟨(k, b), hb1, rfl⟩
    · exfalso
      apply hnodup.1
      have hk : e.1 = k := by rw [← hb1]
      rw [hk]
      exact List.mem_map.mpr ⟨(k, a), ha1, rfl⟩
    · exact ih hnodup.2 ha1 hb1

/-- A key emitted in the current level has an empty dependency set. -/
theorem mem_topo_level_empty (data : List (String × List String))
    (kd : String × List String) (hkd : kd ∈ data)
    (hnodup : (data.map Prod.fst).Nodup)
    (hmem : kd.1 ∈ topo_level data) : kd.2 = [] := by
  unfold topo_level at hmem
  rw [mem_sortStr] at hmem
  rcases List.mem_map.mp hmem with ⟨kd2, hkd2, hfst⟩
  rcases List.mem_filter.mp hkd2 with ⟨hkd2d, hkd2e⟩
  have heq : kd.2 = kd2.2 := by
    apply assoc_uniq data kd.1 kd.2 kd2.2 hnodup
    · show (kd.1, kd.2) ∈ data
      rw [Prod.mk.eta]
      exact hkd
    · show (kd.1, kd2.2) ∈ data
      rw [← hfst, Prod.mk.eta]
      exact hkd2d
  rw [heq]
  exact List.isEmpty_iff.mp hkd2e

/-- The removal round keeps exactly the unemitted keys (as a
membership statement on the key list). -/
theorem topo_rest_keys_mem (data : List (String × List String)) (k : String) :
    k ∈ (topo_rest data).map Prod.fst ↔
      k ∈ data.map Prod.fst ∧ k ∉ topo_level data := by
  unfold topo_rest
  rw [List.map_map]
  constructor
  · intro h
    rcases List.mem_map.mp h with ⟨kd, hkd, hfst⟩
    rcases List.mem_filter.mp hkd with ⟨hd, hp⟩
    rw [decide_eq_true_eq] at hp
    subst hfst
    exact ⟨List.mem_map.mpr ⟨kd, hd, rfl⟩, hp⟩
  · rintro ⟨h1, h2⟩
    rcases List.mem_map.mp h1 with ⟨kd, hkd, hfst⟩
    apply List.mem_map.mpr
    refine ⟨kd, ?_, hfst⟩
    apply List.mem_filter.mpr
    exact ⟨hkd, by rw [hfst]; simpa using h2⟩

/-- Soundness of the emission loop: whenever it succeeds on a map with
distinct keys whose dependency sets mention only keys, every
dependency is placed strictly before its dependent in the output. -/
theorem topo_loop_fuel_sound :
    ∀ (fuel : Nat) (data : List (String × List String)) (out : List String),
      (data.map Prod.fst).Nodup →
      (∀ kd ∈ data, ∀ d ∈ kd.2, d ∈ data.map Prod.fst) →
      topo_loop_fuel fuel data = some out →
      ∀ kd ∈ data, ∀ d ∈ kd.2, posIn out d < posIn out kd.1 := by
  intro fuel
  induction fuel with
  | zero =>
    intro data out _ _ hout kd hkd d hd
    cases data with
    | nil => simp at hkd
    | cons a rest => simp [topo_loop_fuel] at hout
  | succ n ih =>
    intro data out hnodup hclosed hout kd hkd d hd
    cases data with
    | nil => simp at hkd
    | cons a rest0 =>
      rw [topo_loop_fuel] at hout
      rw [if_neg (by simp)] at hout
      by_cases hoe : (topo_level (a :: rest0)).isEmpty = true
      · rw [if_pos hoe] at hout
        exact absurd hout (by simp)
      · rw [if_neg hoe] at hout
        cases hrec : topo_loop_fuel n (topo_rest (a :: rest0)) with
        | none => rw [hrec] at hout; exact absurd hout (by simp)
        | some out2 =>
          rw [hrec] at hout
          have houteq : out = topo_level (a :: rest0) ++ out2 := by
            simpa using hout.symm
          subst houteq
          by_cases hkmem : kd.1 ∈ topo_level (a :: rest0)
          · exfalso
            have := mem_topo_level_empty (a :: rest0) kd hkd hnodup hkmem
            rw [this] at hd
            simp at hd
          · have hkpos : posIn (topo_level (a :: rest0) ++ out2) kd.1
                = (topo_level (a :: rest0)).length + posIn out2 kd.1 :=
              posIn_append_right _ _ _ hkmem
            by_cases hdmem : d ∈ topo_level (a :: rest0)
            · have hdpos : posIn (topo_level (a :: rest0) ++ out2) d
                  = posIn (topo_level (a :: rest0)) d :=
                posIn_append_left _ _ _ hdmem
              rw [hdpos, hkpos]
              have := posIn_lt_length_of_mem _ _ hdmem
              omega
            · have hdpos : posIn (topo_level (a :: rest0) ++ out2) d
                  = (topo_level (a :: rest0)).length + posIn out2 d :=
                posIn_append_right _ _ _ hdmem
              rw [hdpos, hkpos]
              have hkd2 : (kd.1, kd.2.filter
                  (fun x => decide (x ∉ topo_level (a :: rest0)))) ∈ topo_rest (a :: rest0) := by
                unfold topo_rest
                apply List.mem_map.mpr
                refine ⟨kd, ?_, rfl⟩
                apply List.mem_filter.mpr
                exact ⟨hkd, by simpa using hkmem⟩
              have hnodup2 : ((topo_rest (a :: rest0)).map Prod.fst).Nodup := by
                unfold topo_rest
                rw [List.map_map]
                show (((a :: rest0).filter
                    (fun kd => decide (kd.1 ∉ topo_level (a :: rest0)))).map Prod.fst).Nodup
                exact List.Nodup.sublist
                  (List.Sublist.map Prod.fst (List.filter_sublist _)) hnodup
              have hclosed2 : ∀ kd2 ∈ topo_rest (a :: rest0), ∀ d2 ∈ kd2.2,
                  d2 ∈ (topo_rest (a :: rest0)).map Prod.fst := by
                intro kd2 hkd2m d2 hd2
                unfold topo_rest at hkd2m
                rcases List.mem_map.mp hkd2m with ⟨kd3, hkd3, heq⟩
                have hkd3d := (List.mem_filter.mp hkd3).1
                rw [← heq] at hd2
                rcases List.mem_filter.mp hd2 with ⟨hd2orig, hd2p⟩
                have hd2not : d2 ∉ topo_level (a :: rest0) := by simpa using hd2p
                apply (topo_rest_keys_mem _ _).mpr
                exact ⟨hclosed kd3 hkd3d d2 hd2orig, hd2not⟩
              have hres := ih (topo_rest (a :: rest0)) out2 hnodup2 hclosed2 hrec
                _ hkd2 d (List.mem_filter.mpr ⟨hd, by simpa using hdmem⟩)
              have hres2 : posIn out2 d < posIn out2 kd.1 := hres
              omega

/-- Soundness of `toposort_flatten`: every non-self dependency edge of
a distinct-keyed map is emitted strictly before its dependent. -/
theorem toposort_flatten_sound (data : List (String × List String)) (out : List String)
    (hnodup : (data.map Prod.fst).Nodup)
    (hout : toposort_flatten data = some out) :
    ∀ kd ∈ data, ∀ d ∈ kd.2, d ≠ kd.1 → posIn out d < posIn out kd.1 := by
  intro kd hkd d hd hne
  unfold toposort_flatten topo_loop at hout
  have hprepnodup : ((topo_prep data).map Prod.fst).Nodup := by
    unfold topo_prep
    rw [List.map_append, discard_self_keys]
    have hexmap : ((extra_items data).map (fun e => (e, ([] : List String)))).map Prod.fst
        = extra_items data := by
      rw [List.map_map]
      exact List.map_id _
    rw [hexmap]
    apply List.Nodup.append hnodup
    · exact List.nodup_dedup _
    · intro x hx1 hx2
      have hxp := (List.mem_filter.mp (List.mem_dedup.mp hx2)).2
      rw [decide_eq_true_eq] at hxp
      exact hxp hx1
  have hprepclosed : ∀ kd2 ∈ topo_prep data, ∀ d2 ∈ kd2.2,
      d2 ∈ (topo_prep data).map Prod.fst := by
    intro kd2 hkd2 d2 hd2
    unfold topo_prep at hkd2
    rcases List.mem_append.mp hkd2 with hleft | hright
    · unfold topo_prep
      rw [List.map_append, discard_self_keys]
      by_cases hk2 : d2 ∈ data.map Prod.fst
      · exact List.mem_append_left _ hk2
      · apply List.mem_append_right
        have hexmap : ((extra_items data).map (fun e => (e, ([] : List String)))).map Prod.fst
            = extra_items data := by
          rw [List.map_map]
          exact List.map_id _
        rw [hexmap]
        unfold extra_items
        apply List.mem_dedup.mpr
        apply List.mem_filter.mpr
        refine ⟨List.mem_flatMap.mpr ⟨kd2, hleft, hd2⟩, by simpa using hk2⟩
    · exfalso
      rcases List.mem_map.mp hright with ⟨e, _, heq⟩
      rw [← heq] at hd2
      simp at hd2
  have hin : (kd.1, kd.2.filter (fun x => decide (x ≠ kd.1))) ∈ topo_prep data := by
    unfold topo_prep
    apply List.mem_append_left
    unfold discard_self
    exact List.mem_map.mpr ⟨kd, hkd, rfl⟩
  exact topo_loop_fuel_sound _ _ _ hprepnodup hprepclosed hout
    _ hin d (List.mem_filter.mpr ⟨hd, by simpa using hne⟩)

/-- The collected records mirror the emitted order index by index. -/
theorem collect_records_spec (modules : List (String × Module)) :
    ∀ (names : List String) (out : List PackRecord),
      collect_records modules names = some out →
      out.length = names.length ∧
      ∀ i : Nat, out.get? i
        = (names.get? i).bind (fun n => (lookupModule modules n).map Module.to_dict) := by
  intro names
  induction names with
  | nil =>
    intro out hout
    have : out = [] := by
      have h : some ([] : List PackRecord) = some out := hout ▸ rfl
      simpa using h.symm
    subst this
    exact ⟨rfl, fun i => by cases i <;> rfl⟩
  | cons n rest ih =>
    intro out hout
    unfold collect_records at hout
    cases ho : lookupModule modules n with
    | none => rw [ho] at hout; exact absurd hout (by simp)
    | some m =>
      rw [ho] at hout
      cases hr : collect_records modules rest with
      | none => rw [hr] at hout; exact absurd hout (by simp)
      | some out2 =>
        rw [hr] at hout
        have houteq : out = m.to_dict :: out2 := by simpa using hout.symm
        subst houteq
        rcases ih out2 hr with ⟨hlen, hget⟩
        constructor
        · simpa using hlen
        · intro i
          cases i with
          | zero =>
            show some m.to_dict = (some n).bind _
            rw [show (some n).bind (fun n => (lookupModule modules n).map Module.to_dict)
              = (lookupModule modules n).map Module.to_dict from rfl, ho]
            rfl
          | succ j => exact hget j

/-- Claim C6 (corrected): whenever pack generation produces an output
sequence, every recorded dependency edge between two distinct
registered modules (A depends on B, A ≠ B) is respected: B's position
in the emitted order — and hence B's record's position in the output,
which mirrors the order index by index — is strictly less than A's.
(For a self-edge A = A the positions coincide, see the
counterexample.) -/
theorem c6_topological_validity (modules : List (String × Module))
    (out : List PackRecord) (k d : String) (m : Module)
    (hnodup : (modules.map Prod.fst).Nodup)
    (hout : generate_data modules = some out)
    (hkm : (k, m) ∈ modules) (hd : d ∈ m.imports) (hne : d ≠ k)
    (hreg : d ∈ modules.map Prod.fst) :
    ∃ order, build_dependency_data modules = some order ∧
      posIn order d < posIn order k ∧
      out.length = order.length ∧
      ∀ i : Nat, out.get? i
        = (order.get? i).bind (fun n => (lookupModule modules n).map Module.to_dict) := by
  unfold generate_data at hout
  unfold build_dependency_data at hout ⊢
  cases hb : toposort_flatten (modules.map (fun km => (km.1, km.2.imports))) with
  | none => rw [hb] at hout; exact absurd hout (by simp)
  | some order =>
    rw [hb] at hout
    have hcoll : collect_records modules order = some out := hout
    refine ⟨order, rfl, ?_, ?_, ?_⟩
    · have hkeys : (modules.map (fun km => (km.1, km.2.imports))).map Prod.fst
          = modules.map Prod.fst := by
        rw [List.map_map]
        rfl
      exact toposort_flatten_sound (modules.map (fun km => (km.1, km.2.imports))) order
        (by rw [hkeys]; exact hnodup) hb
        (k, m.imports) (List.mem_map.mpr ⟨(k, m), hkm, rfl⟩) d hd hne
    · exact (collect_records_spec modules order out hcoll).1
    · exact (collect_records_spec modules order out hcoll).2

/-- Claim C6 (corrected), witness: registry `{a: no deps, b: imports
a}` — the pack is `[a, b]` with `a` strictly before `b`. -/
theorem c6_topological_validity_witness :
    ∃ order, build_dependency_data
      [("b", { module_name := "b", file_name := "b.py", is_package := false,
               content := "", imports := ["a"] }),
       ("a", { module_name := "a", file_name := "a.py", is_package := false,
               content := "", imports := [] })] = some order ∧
      posIn order "a" < posIn order "b" ∧
      ([{ name := "a", is_package := false, code := "" },
        { name := "b", is_package := false, code := "" }] : List PackRecord).length
        = order.length ∧
      ∀ i : Nat, ([{ name := "a", is_package := false, code := "" },
        { name := "b", is_package := false, code := "" }] : List PackRecord).get? i
        = (order.get? i).bind (fun n => (lookupModule
            [("b", { module_name := "b", file_name := "b.py", is_package := false,
                     content := "", imports := ["a"] }),
             ("a", { module_name := "a", file_name := "a.py", is_package := false,
                     content := "", imports := [] })] n).map Module.to_dict) :=
  c6_topological_validity
    [("b", { module_name := "b", file_name := "b.py", is_package := false,
             content := "", imports := ["a"] }),
     ("a", { module_name := "a", file_name := "a.py", is_package := false,
             content := "", imports := [] })]
    [{ name := "a", is_package := false, code := "" },
     { name := "b", is_package := false, code := "" }]
    "b" "a"
    { module_name := "b", file_name := "b.py", is_package := false,
      content := "", imports := ["a"] }
    (by decide) (by rfl) (by decide) (by decide) (by decide) (by decide)

/-- The shortening loop is fuel-independent above the name length:
each iteration strictly shortens the name, so any fuel beyond
`name.length` computes the same (Python) fixpoint. -/
theorem find_loop_fuel_adequate :
    ∀ (n : Nat) (name : String) (f1 f2 : Nat) (fs : FS) (paths : List Path)
      (ep : Option Path),
      name.length ≤ n → name.length < f1 → name.length < f2 →
      find_loop_fuel fs paths ep f1 name = find_loop_fuel fs paths ep f2 name := by
  intro n
  induction n with
  | zero =>
    intro name f1 f2 fs paths ep hn h1 h2
    have hname : name = "" := by
      have hlen : name.length = 0 := Nat.le_zero.mp hn
      cases name with
      | mk d =>
        cases d with
        | nil => rfl
        | cons c t => exact absurd hlen (by simp [String.length])
    subst hname
    cases f1 with
    | zero => exact absurd h1 (by omega)
    | succ f1a =>
      cases f2 with
      | zero => exact absurd h2 (by omega)
      | succ f2a =>
        rw [find_loop_fuel, find_loop_fuel, if_pos rfl, if_pos rfl]
  | succ k ih =>
    intro name f1 f2 fs paths ep hn h1 h2
    cases f1 with
    | zero => exact absurd h1 (by omega)
    | succ f1a =>
      cases f2 with
      | zero => exact absurd h2 (by omega)
      | succ f2a =>
        rw [find_loop_fuel, find_loop_fuel]
        by_cases hname : name = ""
        · rw [if_pos hname, if_pos hname]
        · rw [if_neg hname, if_neg hname]
          cases hg : get_name_via_module fs paths name ep with
          | some m => rfl
          | none =>
            cases hg2 : get_name_via_module fs paths (name ++ ".__init__") ep with
            | some m => rfl
            | none =>
              have hlt := rpartitionHead_length_lt name hname
              exact ih (rpartitionHead name) f1a f2a fs paths ep
                (by omega) (by omega) (by omega)

/-- `find_loop`'s seed of `name.length + 1` units of fuel is enough:
any larger budget computes the same answer. -/
theorem find_loop_eq_fuel (fs : FS) (paths : List Path) (ep : Option Path)
    (name : String) (f : Nat) (h : name.length < f) :
    find_loop fs paths name ep = find_loop_fuel fs paths ep f name :=
  find_loop_fuel_adequate name.length name (name.length + 1) f fs paths ep
    (Nat.le_refl _) (Nat.lt_succ_self _) h

/-- A round of the toposort loop with a non-empty level strictly
shrinks the map. -/
theorem topo_rest_length_lt (data : List (String × List String))
    (h : (topo_level data).isEmpty = false) :
    (topo_rest data).length < data.length := by
  unfold topo_rest
  rw [List.length_map]
  have hne : topo_level data ≠ [] := by
    intro hcon
    rw [hcon] at h
    simp at h
  have hhead : (topo_level data).head hne ∈ topo_level data := List.head_mem hne
  have hmem : (topo_level data).head hne
      ∈ (data.filter (fun kd => kd.2.isEmpty)).map Prod.fst := by
    have hh := hhead
    unfold topo_level at hh
    exact (mem_sortStr _ _).mp hh
  rcases List.mem_map.mp hmem with ⟨kd, hkd, hfst⟩
  apply List.length_filter_lt_length_iff_exists.mpr
  refine ⟨kd, (List.mem_filter.mp hkd).1, ?_⟩
  simp [hfst, hhead]

/-- The toposort emission loop is fuel-independent above the map
size: every round removes at least one key. -/
theorem topo_loop_fuel_adequate :
    ∀ (n : Nat) (data : List (String × List String)) (f1 f2 : Nat),
      data.length ≤ n → data.length ≤ f1 → data.length ≤ f2 →
      topo_loop_fuel f1 data = topo_loop_fuel f2 data := by
  intro n
  induction n with
  | zero =>
    intro data f1 f2 hn _ _
    have : data = [] := List.length_eq_zero.mp (Nat.le_zero.mp hn)
    subst this
    rw [topo_loop_fuel_nil, topo_loop_fuel_nil]
  | succ k ih =>
    intro data f1 f2 hn h1 h2
    cases data with
    | nil => rw [topo_loop_fuel_nil, topo_loop_fuel_nil]
    | cons a rest =>
      cases f1 with
      | zero => exact absurd h1 (by simp)
      | succ f1a =>
        cases f2 with
        | zero => exact absurd h2 (by simp)
        | succ f2a =>
          have hstep : ∀ fa : Nat,
              topo_loop_fuel (fa + 1) (a :: rest) =
                if (topo_level (a :: rest)).isEmpty = true then none
                else (topo_loop_fuel fa (topo_rest (a :: rest))).map
                  (fun out => topo_level (a :: rest) ++ out) := by
            intro fa
            rw [topo_loop_fuel]
            rw [if_neg (by simp)]
          rw [hstep f1a, hstep f2a]
          by_cases hoe : (topo_level (a :: rest)).isEmpty = true
          · rw [if_pos hoe, if_pos hoe]
          · rw [if_neg hoe, if_neg hoe]
            have hoe2 : (topo_level (a :: rest)).isEmpty = false := by
              revert hoe
              cases (topo_level (a :: rest)).isEmpty <;> simp
            have hlt := topo_rest_length_lt (a :: rest) hoe2
            have hlen : (a :: rest).length = rest.length + 1 := rfl
            rw [ih (topo_rest (a :: rest)) f1a f2a (by omega) (by omega) (by omega)]

/-- `topo_loop`'s seed of `data.length` units of fuel is enough: any
larger budget computes the same answer. -/
theorem topo_loop_eq_fuel (data : List (String × List String)) (f : Nat)
    (h : data.length ≤ f) :
    topo_loop data = topo_loop_fuel f data :=
  topo_loop_fuel_adequate data.length data data.length f
    (Nat.le_refl _) (Nat.le_refl _) h

end PDist
